import Mathlib

/-!
Shallow embedding of the dense linear-algebra utilities of the repository
(`src/utilities/linear_algebra/dense_vector.cpp` and
`src/utilities/linear_algebra/dense_matrix.hpp`, namespace `utilities`).

Modelling conventions:
* the scalar type `double` is modelled as `ℚ` (exact arithmetic; the claims
  under study are about data movement and element-wise update rules, not
  rounding);
* a `dvec` (`std::vector<double>`) is modelled as `List ℚ`; in-place mutation
  becomes a function returning the updated list;
* machine `int` / `unsigned int` index arithmetic is modelled over `ℕ`; the
  source subtractions (`*it_zeros - nzStart`, `sub.size() - nzStart`) are
  non-negative exactly under the strictly-increasing / in-range preconditions
  the claims assume, where `ℕ` truncated subtraction agrees with `int`;
* the external BLAS kernels (`ccopy_`, `daxpy_`, `dsbmv_`) are out of the
  repository; each is modelled by its documented contract specialised to the
  fixed calling convention used by the source (unit strides, explicit length).
-/

namespace Utilities

/-- Models `CopyVector(out, in, N)` (a `ccopy_` call with unit strides), with
explicit base offsets standing for the pointer offsets of the call sites:
positions `outPos + t` of `out` receive the values at positions `inPos + t`
of `inp`, for `t < n`. -/
def copyVector (out inp : List ℚ) (outPos inPos n : ℕ) : List ℚ :=
  match n with
  | 0 => out
  | k + 1 => copyVector (out.set outPos (inp.getD inPos 0)) inp (outPos + 1) (inPos + 1) k

theorem copyVector_length (inp : List ℚ) (n : ℕ) :
    ∀ (out : List ℚ) (outPos inPos : ℕ), (copyVector out inp outPos inPos n).length = out.length := by
  induction n with
  | zero => intro out outPos inPos; rfl
  | succ k ih =>
      intro out outPos inPos
      rw [copyVector, ih]
      exact List.length_set ..

theorem getD_set (l : List ℚ) (i j : ℕ) (v : ℚ) :
    (l.set i v).getD j 0 = if i = j ∧ j < l.length then v else l.getD j 0 := by
  simp only [List.getD_eq_getElem?_getD, List.getElem?_set]
  by_cases hij : i = j
  · subst hij
    by_cases hi : i < l.length
    · simp [hi]
    · simp only [hi, and_false, if_false, if_neg, ite_self]
      rw [List.getElem?_eq_none (Nat.le_of_not_lt hi)]
      simp [hi]
  · simp [hij]

theorem copyVector_getD_lo (inp : List ℚ) (n : ℕ) :
    ∀ (out : List ℚ) (outPos inPos i : ℕ), i < outPos →
      (copyVector out inp outPos inPos n).getD i 0 = out.getD i 0 := by
  induction n with
  | zero => intro out outPos inPos i _; rfl
  | succ k ih =>
      intro out outPos inPos i hi
      rw [copyVector, ih _ _ _ _ (Nat.lt_succ_of_lt hi), getD_set]
      have : ¬ (outPos = i ∧ i < out.length) := by
        rintro ⟨rfl, -⟩; exact absurd hi (Nat.lt_irrefl _)
      simp [this]

theorem copyVector_getD_hi (inp : List ℚ) (n : ℕ) :
    ∀ (out : List ℚ) (outPos inPos i : ℕ), outPos + n ≤ i →
      (copyVector out inp outPos inPos n).getD i 0 = out.getD i 0 := by
  induction n with
  | zero => intro out outPos inPos i _; rfl
  | succ k ih =>
      intro out outPos inPos i hi
      rw [copyVector, ih _ _ _ _ (by omega), getD_set]
      have : ¬ (outPos = i ∧ i < out.length) := by
        rintro ⟨rfl, -⟩; omega
      simp [this]

theorem copyVector_getD_mid (inp : List ℚ) (n : ℕ) :
    ∀ (out : List ℚ) (outPos inPos t : ℕ), t < n → outPos + n ≤ out.length →
      (copyVector out inp outPos inPos n).getD (outPos + t) 0 = inp.getD (inPos + t) 0 := by
  induction n with
  | zero => intro out outPos inPos t ht _; omega
  | succ k ih =>
      intro out outPos inPos t ht hlen
      match t with
      | 0 =>
          rw [copyVector, copyVector_getD_lo _ _ _ _ _ _ (by omega), getD_set]
          have hc : outPos = outPos + 0 ∧ outPos + 0 < out.length := by
            constructor <;> omega
          rw [if_pos hc]
          simp
      | s + 1 =>
          rw [copyVector]
          have := ih (out.set outPos (inp.getD inPos 0)) (outPos + 1) (inPos + 1) s
            (by omega) (by rw [List.length_set]; omega)
          rw [show outPos + (s + 1) = outPos + 1 + s by omega, this,
            show inPos + 1 + s = inPos + (s + 1) by omega]

/-- Full-buffer copy: copying `inp.length` elements onto an equal-length buffer
reproduces `inp`. -/
theorem copyVector_full (out inp : List ℚ) (h : out.length = inp.length) :
    copyVector out inp 0 0 inp.length = inp := by
  apply List.ext_getElem
  · rw [copyVector_length, h]
  · intro i h1 h2
    have hlen : (copyVector out inp 0 0 inp.length).length = out.length := copyVector_length ..
    have hmid := copyVector_getD_mid inp inp.length out 0 0 i (by omega) (by omega)
    simp only [Nat.zero_add] at hmid
    have hL : (copyVector out inp 0 0 inp.length).getD i 0 =
        (copyVector out inp 0 0 inp.length)[i] := by
      simp [List.getD_eq_getElem?_getD, List.getElem?_eq_getElem h1]
    have hR : inp.getD i 0 = inp[i] := by
      simp [List.getD_eq_getElem?_getD, List.getElem?_eq_getElem h2]
    rw [hL, hR] at hmid
    exact hmid

/-- Number of designated skip positions strictly below `j`; for a strictly
increasing `zeros` this is the rank of `j` used to locate the input/output
position that the packing protocol associates with sub-vector position `j`. -/
def skipRank (zeros : List ℕ) (j : ℕ) : ℕ :=
  zeros.countP (fun z => decide (z < j))

theorem skipRank_nil (j : ℕ) : skipRank [] j = 0 := rfl

theorem skipRank_eq_zero (z : ℕ) (rest : List ℕ) (j : ℕ) (hz : j ≤ z)
    (hrest : ∀ z' ∈ rest, z < z') : skipRank (z :: rest) j = 0 := by
  rw [skipRank, List.countP_eq_zero]
  intro a ha
  simp only [decide_eq_true_eq]
  rcases List.mem_cons.mp ha with rfl | ha'
  · omega
  · have := hrest a ha'; omega

theorem skipRank_cons_lt (z : ℕ) (rest : List ℕ) (j : ℕ) (h : z < j) :
    skipRank (z :: rest) j = skipRank rest j + 1 := by
  rw [skipRank, skipRank, List.countP_cons]
  simp [h]

/-- Models `ToSubVector(sub, input, offset, zeros)` (dense_vector.cpp lines
63–84): the loop over `zeros` becomes recursion over the list; the loop
state `(sub, nnzCumulative, nzStart)` becomes the arguments
`(sub, cum, start)`, and the trailing unconditional `CopyVector` of the
source is the base case. -/
def toSubAux (input : List ℚ) (sub : List ℚ) (cum start : ℕ) : List ℕ → List ℚ
  | [] => copyVector sub input start cum (sub.length - start)
  | z :: rest =>
      toSubAux input
        (if z - start ≠ 0 then copyVector sub input start cum (z - start) else sub)
        (cum + (z - start)) (z + 1) rest

/-- Models `ToSubVector(sub, input, offset, zeros)`: entry point with
`nnzCumulative = offset` and `nzStart = 0`. -/
def toSubVector (sub input : List ℚ) (offset : ℕ) (zeros : List ℕ) : List ℚ :=
  toSubAux input sub offset 0 zeros

/-- Models the no-zeros overload of `ToSubVector` (dense_vector.cpp lines
89–96): a straight copy of `sub.size()` elements starting at `offset`. -/
def toSubVectorNoZeros (sub input : List ℚ) (offset : ℕ) : List ℚ :=
  copyVector sub input 0 offset sub.length

/-- Models `FromSubVector(sub, output, offset, zeros)` (dense_vector.cpp lines
102–123), the mirror scatter of `toSubAux`. -/
def fromSubAux (sub : List ℚ) (output : List ℚ) (cum start : ℕ) : List ℕ → List ℚ
  | [] => copyVector output sub cum start (sub.length - start)
  | z :: rest =>
      fromSubAux sub
        (if z - start ≠ 0 then copyVector output sub cum start (z - start) else output)
        (cum + (z - start)) (z + 1) rest

/-- Models `FromSubVector(sub, output, offset, zeros)`: entry point with
`nnzCumulative = offset` and `nzStart = 0`. -/
def fromSubVector (sub output : List ℚ) (offset : ℕ) (zeros : List ℕ) : List ℚ :=
  fromSubAux sub output offset 0 zeros

/-- Models the no-zeros overload of `FromSubVector` (dense_vector.cpp lines
128–135). -/
def fromSubVectorNoZeros (sub output : List ℚ) (offset : ℕ) : List ℚ :=
  copyVector output sub offset 0 sub.length

theorem toSubAux_length (input : List ℚ) (zeros : List ℕ) :
    ∀ (sub : List ℚ) (cum start : ℕ),
      (toSubAux input sub cum start zeros).length = sub.length := by
  induction zeros with
  | nil => intro sub cum start; rw [toSubAux]; exact copyVector_length ..
  | cons z rest ih =>
      intro sub cum start
      rw [toSubAux, ih]
      by_cases h : z - start ≠ 0 <;> simp [h, copyVector_length]

theorem toSubAux_getD_lo (input : List ℚ) (zeros : List ℕ) :
    ∀ (sub : List ℚ) (cum start : ℕ), zeros.Pairwise (· < ·) → (∀ z ∈ zeros, start ≤ z) →
      ∀ i, i < start → (toSubAux input sub cum start zeros).getD i 0 = sub.getD i 0 := by
  induction zeros with
  | nil =>
      intro sub cum start _ _ i hi
      rw [toSubAux]; exact copyVector_getD_lo _ _ _ _ _ _ hi
  | cons z rest ih =>
      intro sub cum start hp hb i hi
      have hz : start ≤ z := hb z (List.mem_cons_self ..)
      rw [toSubAux, ih _ _ _ (List.Pairwise.of_cons hp)
        (fun z' hz' => Nat.succ_le_of_lt ((List.pairwise_cons.mp hp).1 z' hz')) i (by omega)]
      by_cases h : z - start ≠ 0
      · rw [if_pos h]; exact copyVector_getD_lo _ _ _ _ _ _ hi
      · rw [if_neg h]

theorem toSubAux_getD (input : List ℚ) (zeros : List ℕ) :
    ∀ (sub : List ℚ) (cum start : ℕ), zeros.Pairwise (· < ·) →
      (∀ z ∈ zeros, start ≤ z ∧ z < sub.length) → start ≤ sub.length →
      ∀ j, start ≤ j → j < sub.length → j ∉ zeros →
        (toSubAux input sub cum start zeros).getD j 0
          = input.getD (cum + (j - start) - skipRank zeros j) 0 := by
  induction zeros with
  | nil =>
      intro sub cum start _ _ hs j hj1 hj2 _
      rw [toSubAux, skipRank_nil, Nat.sub_zero]
      have hm := copyVector_getD_mid input (sub.length - start) sub start cum (j - start)
        (by omega) (by omega)
      rw [show start + (j - start) = j by omega] at hm
      exact hm
  | cons z rest ih =>
      intro sub cum start hp hb hs j hj1 hj2 hjz
      have hz := hb z (List.mem_cons_self ..)
      have hrest : ∀ z' ∈ rest, z < z' := fun z' hz' => (List.pairwise_cons.mp hp).1 z' hz'
      have hjne : j ≠ z := fun h => hjz (h ▸ List.mem_cons_self ..)
      rw [toSubAux]
      set sub2 := (if z - start ≠ 0 then copyVector sub input start cum (z - start) else sub)
        with hsub2
      have hlen2 : sub2.length = sub.length := by
        rw [hsub2]; by_cases h : z - start ≠ 0 <;> simp [h, copyVector_length]
      rcases Nat.lt_or_ge j z with hlt | hge
      · -- `j` sits in the run copied before skip position `z`; the recursion
        -- only writes positions at `z + 1` and beyond.
        have hn : z - start ≠ 0 := by omega
        rw [toSubAux_getD_lo input rest sub2 (cum + (z - start)) (z + 1)
          (List.Pairwise.of_cons hp)
          (fun z' hz' => Nat.succ_le_of_lt (hrest z' hz')) j (by omega)]
        rw [hsub2, if_pos hn]
        have hm := copyVector_getD_mid input (z - start) sub start cum (j - start)
          (by omega) (by omega)
        rw [show start + (j - start) = j by omega] at hm
        rw [hm, skipRank_eq_zero z rest j (by omega) hrest, Nat.sub_zero]
      · have hgt : z < j := by omega
        have ihres := ih sub2 (cum + (z - start)) (z + 1) (List.Pairwise.of_cons hp)
          (fun z' hz' => ⟨Nat.succ_le_of_lt (hrest z' hz'), by
            rw [hlen2]; exact (hb z' (List.mem_cons_of_mem _ hz')).2⟩)
          (by omega) j (by omega) (by omega) (fun h => hjz (List.mem_cons_of_mem _ h))
        rw [ihres, skipRank_cons_lt z rest j hgt]
        congr 1
        omega

theorem fromSubAux_length (sub : List ℚ) (zeros : List ℕ) :
    ∀ (output : List ℚ) (cum start : ℕ),
      (fromSubAux sub output cum start zeros).length = output.length := by
  induction zeros with
  | nil => intro output cum start; rw [fromSubAux]; exact copyVector_length ..
  | cons z rest ih =>
      intro output cum start
      rw [fromSubAux, ih]
      by_cases h : z - start ≠ 0 <;> simp [h, copyVector_length]

theorem fromSubAux_getD_lo (sub : List ℚ) (zeros : List ℕ) :
    ∀ (output : List ℚ) (cum start : ℕ), ∀ i, i < cum →
      (fromSubAux sub output cum start zeros).getD i 0 = output.getD i 0 := by
  induction zeros with
  | nil =>
      intro output cum start i hi
      rw [fromSubAux]; exact copyVector_getD_lo _ _ _ _ _ _ hi
  | cons z rest ih =>
      intro output cum start i hi
      rw [fromSubAux, ih _ _ _ i (by omega)]
      by_cases h : z - start ≠ 0
      · rw [if_pos h]; exact copyVector_getD_lo _ _ _ _ _ _ hi
      · rw [if_neg h]

theorem fromSubAux_getD (sub : List ℚ) (zeros : List ℕ) :
    ∀ (output : List ℚ) (cum start : ℕ), zeros.Pairwise (· < ·) →
      (∀ z ∈ zeros, start ≤ z ∧ z < sub.length) → start ≤ sub.length →
      cum + (sub.length - start) ≤ output.length →
      ∀ j, start ≤ j → j < sub.length → j ∉ zeros →
        (fromSubAux sub output cum start zeros).getD (cum + (j - start) - skipRank zeros j) 0
          = sub.getD j 0 := by
  induction zeros with
  | nil =>
      intro output cum start _ _ hs hout j hj1 hj2 _
      rw [fromSubAux, skipRank_nil, Nat.sub_zero]
      have hm := copyVector_getD_mid sub (sub.length - start) output cum start (j - start)
        (by omega) (by omega)
      rw [show start + (j - start) = j by omega] at hm
      exact hm
  | cons z rest ih =>
      intro output cum start hp hb hs hout j hj1 hj2 hjz
      have hz := hb z (List.mem_cons_self ..)
      have hrest : ∀ z' ∈ rest, z < z' := fun z' hz' => (List.pairwise_cons.mp hp).1 z' hz'
      have hjne : j ≠ z := fun h => hjz (h ▸ List.mem_cons_self ..)
      rw [fromSubAux]
      set out2 := (if z - start ≠ 0 then copyVector output sub cum start (z - start) else output)
        with hout2
      have hlen2 : out2.length = output.length := by
        rw [hout2]; by_cases h : z - start ≠ 0 <;> simp [h, copyVector_length]
      rcases Nat.lt_or_ge j z with hlt | hge
      · have hn : z - start ≠ 0 := by omega
        rw [skipRank_eq_zero z rest j (by omega) hrest, Nat.sub_zero]
        rw [fromSubAux_getD_lo sub rest out2 (cum + (z - start)) (z + 1)
          (cum + (j - start)) (by omega)]
        rw [hout2, if_pos hn]
        have hm := copyVector_getD_mid sub (z - start) output cum start (j - start)
          (by omega) (by omega)
        rw [show start + (j - start) = j by omega] at hm
        exact hm
      · have hgt : z < j := by omega
        have ihres := ih out2 (cum + (z - start)) (z + 1) (List.Pairwise.of_cons hp)
          (fun z' hz' => ⟨Nat.succ_le_of_lt (hrest z' hz'),
            (hb z' (List.mem_cons_of_mem _ hz')).2⟩)
          (by omega) (by rw [hlen2]; omega) j (by omega) (by omega)
          (fun h => hjz (List.mem_cons_of_mem _ h))
        rw [skipRank_cons_lt z rest j hgt,
          show cum + (j - start) - (skipRank rest j + 1)
            = cum + (z - start) + (j - (z + 1)) - skipRank rest j by omega]
        exact ihres

/-- C1: for every input vector, strictly increasing zeros sequence, offset and
sub vector (all accesses in range), `ToSubVector(sub, input, offset, zeros)`
followed by `FromSubVector(sub, output, offset, zeros)` on an output vector of
the same length as input leaves output equal to input at every non-skipped
position in the copied range (the position associated with non-skipped
sub-index `j` is `offset + j - skipRank zeros j`). -/
theorem toSub_fromSub_roundtrip
    (input sub output : List ℚ) (offset : ℕ) (zeros : List ℕ)
    (hz : zeros.Pairwise (· < ·))
    (hzb : ∀ z ∈ zeros, z < sub.length)
    (hin : offset + sub.length ≤ input.length)
    (hout : output.length = input.length) :
    ∀ j, j < sub.length → j ∉ zeros →
      (fromSubVector (toSubVector sub input offset zeros) output offset zeros).getD
          (offset + j - skipRank zeros j) 0
        = input.getD (offset + j - skipRank zeros j) 0 := by
  intro j hj hjz
  have hlenT : (toSubVector sub input offset zeros).length = sub.length := toSubAux_length ..
  have hA := toSubAux_getD input zeros sub offset 0 hz
    (fun z hmem => ⟨Nat.zero_le _, hzb z hmem⟩) (Nat.zero_le _) j (Nat.zero_le _) hj hjz
  have hB := fromSubAux_getD (toSubVector sub input offset zeros) zeros output offset 0 hz
    (fun z hmem => ⟨Nat.zero_le _, by rw [hlenT]; exact hzb z hmem⟩) (Nat.zero_le _)
    (by rw [hlenT, Nat.sub_zero, hout]; omega)
    j (Nat.zero_le _) (by rw [hlenT]; exact hj) hjz
  simp only [Nat.sub_zero] at hA hB
  rw [fromSubVector, hB, toSubVector, hA]

theorem toSub_fromSub_roundtrip_witness :
    (fromSubVector (toSubVector [0, 0, 0, 0] [10, 20, 30, 40, 50] 1 [1])
        [0, 0, 0, 0, 0] 1 [1]).getD (1 + 2 - skipRank [1] 2) 0
      = ([10, 20, 30, 40, 50] : List ℚ).getD (1 + 2 - skipRank [1] 2) 0 :=
  toSub_fromSub_roundtrip [10, 20, 30, 40, 50] [0, 0, 0, 0] [0, 0, 0, 0, 0] 1 [1]
    (by decide) (by decide) (by decide) (by decide) 2 (by decide) (by decide)

/-- C8: with an empty `zeros` sequence, `ToSubVector` coincides with its
no-zeros overload and `FromSubVector` with its no-zeros overload, and the
overloads are the straight contiguous copy of `sub.size()` elements starting
at `offset`. -/
theorem subVector_empty_zeros
    (sub input output : List ℚ) (offset : ℕ)
    (hin : offset + sub.length ≤ input.length)
    (hout : offset + sub.length ≤ output.length) :
    toSubVector sub input offset [] = toSubVectorNoZeros sub input offset
    ∧ fromSubVector sub output offset [] = fromSubVectorNoZeros sub output offset
    ∧ (∀ j, j < sub.length →
        (toSubVectorNoZeros sub input offset).getD j 0 = input.getD (offset + j) 0)
    ∧ (∀ j, j < sub.length →
        (fromSubVectorNoZeros sub output offset).getD (offset + j) 0 = sub.getD j 0) := by
  refine ⟨?_, ?_, ?_, ?_⟩
  · rw [toSubVector, toSubAux, toSubVectorNoZeros, Nat.sub_zero]
  · rw [fromSubVector, fromSubAux, fromSubVectorNoZeros, Nat.sub_zero]
  · intro j hj
    have hm := copyVector_getD_mid input sub.length sub 0 offset j hj (by omega)
    rw [Nat.zero_add] at hm
    rw [toSubVectorNoZeros]; exact hm
  · intro j hj
    have hm := copyVector_getD_mid sub sub.length output offset 0 j hj (by omega)
    rw [Nat.zero_add] at hm
    rw [fromSubVectorNoZeros]; exact hm

theorem subVector_empty_zeros_witness :
    toSubVector [1, 2] [10, 20, 30] 1 [] = toSubVectorNoZeros [1, 2] [10, 20, 30] 1
    ∧ (toSubVectorNoZeros [1, 2] [10, 20, 30] 1).getD 0 0 = ([10, 20, 30] : List ℚ).getD (1 + 0) 0
    ∧ (fromSubVectorNoZeros [1, 2] [5, 6, 7] 1).getD (1 + 0) 0 = ([1, 2] : List ℚ).getD 0 0 :=
  ⟨(subVector_empty_zeros [1, 2] [10, 20, 30] [5, 6, 7] 1 (by decide) (by decide)).1,
   (subVector_empty_zeros [1, 2] [10, 20, 30] [5, 6, 7] 1 (by decide) (by decide)).2.2.1 0
     (by decide),
   (subVector_empty_zeros [1, 2] [10, 20, 30] [5, 6, 7] 1 (by decide) (by decide)).2.2.2 0
     (by decide)⟩

theorem getD_range_map {α : Type} (f : ℕ → α) (d : α) (m i : ℕ) (h : i < m) :
    ((List.range m).map f).getD i d = f i := by
  rw [List.getD_eq_getElem?_getD, List.getElem?_map, List.getElem?_range h]
  rfl

/-- Models the fixed block size of `VectorHadamardIncrement`
(`static const int block = 64`). -/
def block : ℕ := 64

/-- Models the INNER loop of `VectorHadamardIncrement` (dense_vector.cpp lines
212–215): starting at position `j`, applies `a[j] *= scale * b[j]` and advances
until `a.end()`; the iteration count `k` is instantiated with `a.length - j` by
the caller, mirroring the source bound `it_a_block < a.end()` (which is the
END of the vector, not the end of the current block). -/
def innerGo (scale : ℚ) (b : List ℚ) : List ℚ → ℕ → ℕ → List ℚ
  | a, _, 0 => a
  | a, j, k + 1 => innerGo scale b (a.set j (a.getD j 0 * (scale * b.getD j 0))) (j + 1) k

/-- Models the OUTER loop of `VectorHadamardIncrement` (dense_vector.cpp lines
209–216): `it_a` advances by `block` while `it_a < a.end()`. The while loop is
encoded with explicit fuel; the caller passes fuel `a.length`, which exceeds
the number `⌈n / block⌉` of iterations the guard `i < n` admits, so the extra
fuel is unreachable and the encoding is exact. -/
def outerGo (scale : ℚ) (b : List ℚ) (n : ℕ) : ℕ → ℕ → List ℚ → List ℚ
  | 0, _, a => a
  | fuel + 1, i, a =>
      if i < n then outerGo scale b n fuel (i + block) (innerGo scale b a i (n - i)) else a

/-- Models `VectorHadamardIncrement(a, scale, b)` (dense_vector.cpp lines
202–217). -/
def vectorHadamardIncrement (a : List ℚ) (scale : ℚ) (b : List ℚ) : List ℚ :=
  outerGo scale b a.length a.length 0 a

theorem innerGo_length (scale : ℚ) (b : List ℚ) :
    ∀ (k : ℕ) (a : List ℚ) (j : ℕ), (innerGo scale b a j k).length = a.length := by
  intro k
  induction k with
  | zero => intro a j; rw [innerGo]
  | succ k ih => intro a j; rw [innerGo, ih, List.length_set]

theorem innerGo_getD (scale : ℚ) (b : List ℚ) :
    ∀ (k : ℕ) (a : List ℚ) (j p : ℕ), j + k ≤ a.length →
      (innerGo scale b a j k).getD p 0
        = if j ≤ p ∧ p < j + k then a.getD p 0 * (scale * b.getD p 0) else a.getD p 0 := by
  intro k
  induction k with
  | zero =>
      intro a j p _
      rw [innerGo, if_neg (by omega)]
  | succ k ih =>
      intro a j p h
      rw [innerGo, ih _ _ _ (by rw [List.length_set]; omega)]
      simp only [getD_set]
      by_cases h1 : j = p
      · subst h1
        rw [if_neg (by omega : ¬ (j + 1 ≤ j ∧ j < j + 1 + k)),
          if_pos (⟨rfl, by omega⟩ : j = j ∧ j < a.length),
          if_pos (by omega : j ≤ j ∧ j < j + (k + 1))]
      · rw [if_neg (show ¬ (j = p ∧ p < a.length) from fun hc => h1 hc.1)]
        by_cases h2 : j + 1 ≤ p ∧ p < j + 1 + k
        · rw [if_pos h2, if_pos (by omega)]
        · rw [if_neg h2, if_neg (by omega)]

theorem outerGo_getD (scale : ℚ) (b : List ℚ) (n : ℕ) :
    ∀ (fuel : ℕ) (a : List ℚ) (i : ℕ), n = a.length → n ≤ i + block * fuel →
      ∀ p, p < n →
        (outerGo scale b n fuel i a).getD p 0
          = if i ≤ p then a.getD p 0 * (scale * b.getD p 0) ^ ((p - i) / block + 1)
            else a.getD p 0 := by
  intro fuel
  induction fuel with
  | zero =>
      intro a i hn hfuel p hp
      rw [outerGo, if_neg (by simp only [block] at hfuel; omega)]
  | succ fuel ih =>
      intro a i hn hfuel p hp
      rw [outerGo]
      by_cases hi : i < n
      · rw [if_pos hi]
        have hlen : (innerGo scale b a i (n - i)).length = a.length := innerGo_length ..
        have hres := ih (innerGo scale b a i (n - i)) (i + block) (by rw [hlen]; exact hn)
          (by simp only [block] at hfuel ⊢; omega) p hp
        have hinner := innerGo_getD scale b (n - i) a i p (by omega)
        by_cases hip : i ≤ p
        · have hin2 : (innerGo scale b a i (n - i)).getD p 0
              = a.getD p 0 * (scale * b.getD p 0) := by
            rw [hinner, if_pos ⟨hip, by omega⟩]
          by_cases hbp : i + block ≤ p
          · have hdiv : (p - i) / block + 1 = ((p - (i + block)) / block + 1) + 1 := by
              simp only [block] at hbp ⊢
              rw [show p - (i + 64) = p - i - 64 by omega,
                Nat.div_eq_sub_div (by norm_num) (by omega : 64 ≤ p - i)]
            rw [hres, if_pos hbp, hin2, if_pos hip, hdiv, pow_succ]
            ring
          · have hdiv : (p - i) / block = 0 :=
              Nat.div_eq_of_lt (by simp only [block] at hbp ⊢; omega)
            rw [hres, if_neg hbp, hin2, if_pos hip, hdiv, pow_one]
        · rw [hres, if_neg (by omega : ¬ i + block ≤ p), hinner,
            if_neg (by omega : ¬ (i ≤ p ∧ p < i + (n - i))), if_neg hip]
      · rw [if_neg hi, if_neg (by omega : ¬ i ≤ p)]

/-- C2 counterexample: the claim says `VectorHadamardIncrement` applies
`a_i := scale * b_i`, discarding the prior value of `a_i`. On `a = [2]`,
`scale = 3`, `b = [5]` the code produces `[2 * (3 * 5)] = [30]`, not
`[3 * 5] = [15]`: the prior value is multiplied in (`a_i *= scale * b_i`,
exactly as the source comment says). -/
theorem hadamardIncrement_not_overwrite :
    (vectorHadamardIncrement [2] 3 [5]).getD 0 0 = 30 ∧ (30 : ℚ) ≠ 3 * 5 := by
  constructor
  · have hmain := outerGo_getD 3 [5] 1 1 [2] 0 rfl (by simp only [block]; omega) 0
      (by norm_num)
    rw [vectorHadamardIncrement, show ([2] : List ℚ).length = 1 from rfl, hmain,
      if_pos (Nat.zero_le _)]
    norm_num [block]
  · norm_num

/-- C2 (amended): `VectorHadamardIncrement(a, scale, b)` applies the in-place
update `a_i := a_i * (scale * b_i)` to element `i`, once per outer block pass
whose start does not exceed `i` — that is `i / block + 1` times — so the final
value is `a_i * (scale * b_i) ^ (i / block + 1)`; for vectors of length at
most `block = 64` this is the single in-place multiply `a_i *= scale * b_i`. -/
theorem vectorHadamardIncrement_update_rule (a : List ℚ) (scale : ℚ) (b : List ℚ)
    (h : a.length = b.length) :
    ∀ i, i < a.length →
      (vectorHadamardIncrement a scale b).getD i 0
        = a.getD i 0 * (scale * b.getD i 0) ^ (i / block + 1) := by
  intro i hi
  rw [vectorHadamardIncrement]
  have hres := outerGo_getD scale b a.length a.length a 0 rfl
    (by simp only [block]; omega) i hi
  rw [hres, if_pos (Nat.zero_le _), Nat.sub_zero]

theorem vectorHadamardIncrement_update_rule_witness :
    (vectorHadamardIncrement [2] 3 [5]).getD 0 0
      = ([2] : List ℚ).getD 0 0 * (3 * ([5] : List ℚ).getD 0 0) ^ (0 / block + 1) :=
  vectorHadamardIncrement_update_rule [2] 3 [5] (by decide) 0 (by decide)

/-- Written from the spec's words for C3: a single straightforward pass that
applies the code's per-element update rule (`a_i *= scale * b_i`) exactly once
to each element. -/
def hadamardIncrementSinglePass (a : List ℚ) (scale : ℚ) (b : List ℚ) : List ℚ :=
  (List.range a.length).map (fun i => a.getD i 0 * (scale * b.getD i 0))

/-- C3 refuted on the code: the block iteration IS observable. The inner loop
of `VectorHadamardIncrement` runs to `a.end()` instead of the end of the
current block, so every outer pass re-applies the update to all remaining
elements: on 65-element all-ones vectors with `scale = 2`, element 64 is
updated twice (by the pass starting at 0 and the pass starting at 64), giving
4 where a single pass gives 2. -/
theorem hadamardIncrement_block_observable :
    (vectorHadamardIncrement (List.replicate 65 1) 2 (List.replicate 65 1)).getD 64 0 = 4
    ∧ (hadamardIncrementSinglePass (List.replicate 65 1) 2 (List.replicate 65 1)).getD 64 0 = 2
    ∧ vectorHadamardIncrement (List.replicate 65 1) 2 (List.replicate 65 1)
        ≠ hadamardIncrementSinglePass (List.replicate 65 1) 2 (List.replicate 65 1) := by
  have hlen : (List.replicate 65 (1 : ℚ)).length = 65 := List.length_replicate ..
  have hget : ∀ j, j < 65 → (List.replicate 65 (1 : ℚ)).getD j 0 = 1 := by
    intro j hj
    rw [List.getD_eq_getElem?_getD, List.getElem?_replicate, if_pos hj]
    rfl
  have h4 : (vectorHadamardIncrement (List.replicate 65 1) 2 (List.replicate 65 1)).getD 64 0
      = (4 : ℚ) := by
    have hmain := outerGo_getD 2 (List.replicate 65 1) 65 65 (List.replicate 65 1) 0
      hlen.symm (by simp only [block]; omega) 64 (by norm_num)
    rw [vectorHadamardIncrement, hlen, hmain, if_pos (Nat.zero_le _),
      hget 64 (by norm_num)]
    norm_num [block]
  have h2 : (hadamardIncrementSinglePass (List.replicate 65 1) 2 (List.replicate 65 1)).getD 64 0
      = (2 : ℚ) := by
    rw [hadamardIncrementSinglePass, hlen,
      getD_range_map _ _ _ _ (by norm_num : (64 : ℕ) < 65), hget 64 (by norm_num)]
    norm_num
  refine ⟨h4, h2, fun hcontra => ?_⟩
  rw [hcontra, h2] at h4
  norm_num at h4

/-- Models the external BLAS `dsbmv_` kernel at the calling convention used by
`VectorHadamard` (UPLO="L", bandwidth `K = 0`, unit strides): a symmetric band
matrix of bandwidth 0 is the diagonal matrix with diagonal `a`, so the
contract `y := alpha*A*x + beta*y` specialises to
`y_i := alpha * a_i * x_i + beta * y_i` for `i < n`, other positions
untouched. -/
def dsbmvDiag (n : ℕ) (alpha : ℚ) (a x : List ℚ) (beta : ℚ) (y : List ℚ) : List ℚ :=
  (List.range y.length).map (fun i =>
    if i < n then alpha * a.getD i 0 * x.getD i 0 + beta * y.getD i 0 else y.getD i 0)

/-- Models `VectorHadamard(c, scale, a, b)` (dense_vector.cpp lines 185–197):
`N = c.size()`, `K = 0`, `BETA = 0.0`. -/
def vectorHadamard (c : List ℚ) (scale : ℚ) (a b : List ℚ) : List ℚ :=
  dsbmvDiag c.length scale a b 0 c

/-- C5: `VectorHadamard(c, scale, a, b)` sets `c_i = scale * a_i * b_i` at
every index, overwriting the prior contents of `c` (the accumulation
coefficient `BETA` is exactly 0, so the result does not depend on the prior
value of `c_i`). -/
theorem vectorHadamard_overwrite (c : List ℚ) (scale : ℚ) (a b : List ℚ)
    (ha : a.length = c.length) (hb : b.length = c.length) :
    ∀ i, i < c.length →
      (vectorHadamard c scale a b).getD i 0 = scale * a.getD i 0 * b.getD i 0 := by
  intro i hi
  rw [vectorHadamard, dsbmvDiag, getD_range_map _ _ _ _ hi, if_pos hi]
  ring

theorem vectorHadamard_overwrite_witness :
    (vectorHadamard [7, 8] 2 [3, 4] [5, 6]).getD 1 0
      = 2 * ([3, 4] : List ℚ).getD 1 0 * ([5, 6] : List ℚ).getD 1 0 :=
  vectorHadamard_overwrite [7, 8] 2 [3, 4] [5, 6] (by decide) (by decide) 1 (by decide)

/-- Models the external BLAS `daxpy_` kernel with unit strides:
`y_i := y_i + alpha * x_i` for `i < n`, other positions untouched. -/
def daxpy (n : ℕ) (alpha : ℚ) (x y : List ℚ) : List ℚ :=
  (List.range y.length).map (fun i =>
    if i < n then y.getD i 0 + alpha * x.getD i 0 else y.getD i 0)

/-- Models `VectorDiff(output, a, b)` (dense_vector.cpp lines 157–167):
`N = output.size()` is captured BEFORE the assignment `output = a`, then
`daxpy_(&N, &mOne, b.data(), &one, output.data(), &one)` runs on the copy of
`a`, so only the first `N` (pre-call) positions have `b` subtracted. -/
def vectorDiff (output a b : List ℚ) : List ℚ :=
  daxpy output.length (-1) b a

/-- C10: `VectorDiff` subtracts over the pre-call length of its output: for
`a`, `b` of equal length and pre-call output length `n0 ≤ a.length`, the
result has `a`'s length, its first `n0` elements equal `a_i - b_i`, and every
element at index `≥ n0` equals `a`'s value there with nothing subtracted. -/
theorem vectorDiff_prefix_semantics (output a b : List ℚ)
    (hab : a.length = b.length) (hn : output.length ≤ a.length) :
    (vectorDiff output a b).length = a.length
    ∧ (∀ i, i < output.length →
        (vectorDiff output a b).getD i 0 = a.getD i 0 - b.getD i 0)
    ∧ (∀ i, output.length ≤ i → i < a.length →
        (vectorDiff output a b).getD i 0 = a.getD i 0) := by
  refine ⟨?_, ?_, ?_⟩
  · rw [vectorDiff, daxpy]; simp
  · intro i hi
    rw [vectorDiff, daxpy, getD_range_map _ _ _ _ (by omega), if_pos hi]
    ring
  · intro i hi1 hi2
    rw [vectorDiff, daxpy, getD_range_map _ _ _ _ hi2, if_neg (by omega)]

theorem vectorDiff_prefix_semantics_witness :
    (vectorDiff [0, 0] [5, 7, 9] [1, 2, 3]).length = ([5, 7, 9] : List ℚ).length
    ∧ (vectorDiff [0, 0] [5, 7, 9] [1, 2, 3]).getD 1 0
        = ([5, 7, 9] : List ℚ).getD 1 0 - ([1, 2, 3] : List ℚ).getD 1 0
    ∧ (vectorDiff [0, 0] [5, 7, 9] [1, 2, 3]).getD 2 0 = ([5, 7, 9] : List ℚ).getD 2 0 :=
  ⟨(vectorDiff_prefix_semantics [0, 0] [5, 7, 9] [1, 2, 3] (by decide) (by decide)).1,
   (vectorDiff_prefix_semantics [0, 0] [5, 7, 9] [1, 2, 3] (by decide) (by decide)).2.1 1
     (by decide),
   (vectorDiff_prefix_semantics [0, 0] [5, 7, 9] [1, 2, 3] (by decide) (by decide)).2.2 2
     (by decide) (by decide)⟩

/-- Models `std::vector<double>::resize(n)`: the kept prefix is preserved and
any new positions are value-initialised to `0.0`. -/
def vecResize (v : List ℚ) (n : ℕ) : List ℚ :=
  v.take n ++ List.replicate (n - v.length) 0

theorem vecResize_length (v : List ℚ) (n : ℕ) : (vecResize v n).length = n := by
  rw [vecResize]
  simp only [List.length_append, List.length_take, List.length_replicate]
  omega

/-- The modulus of C++ `unsigned int` arithmetic: `2^32`. The source computes
the matrix flat index `row*m_dSecond + col` and the buffer size
`m_dLeading*m_dSecond` in `unsigned int`, so both products wrap mod `2^32`. -/
def uintMod : ℕ := 4294967296

/-- Models the dense matrix container `utilities::matrix<T>`
(dense_matrix.hpp lines 45–147) specialised at `T = double`. The dimension
fields hold `unsigned int` values, represented as `ℕ`; arithmetic the source
performs on them in `unsigned int` is taken mod `uintMod` where it occurs. -/
structure matrix where
  m_dLeading : ℕ
  m_dSecond : ℕ
  m_data : List ℚ

/-- Models the default constructor (dense_matrix.hpp lines 55–59): both
dimensions 0, `m_data` default-constructed empty. -/
def matrixDefault : matrix := ⟨0, 0, []⟩

/-- Models `resize(dLeading, dSecond)` (dense_matrix.hpp lines 84–89): store
the dimensions, then `m_data.resize(m_dLeading*m_dSecond)`; the product is
computed in `unsigned int` and wraps mod `2^32`. -/
def matrixResize (m : matrix) (dLeading dSecond : ℕ) : matrix :=
  ⟨dLeading, dSecond, vecResize m.m_data (dLeading * dSecond % uintMod)⟩

/-- Models the sizing constructor `matrix(dLeading, dSecond)` (dense_matrix.hpp
lines 64–67): `m_data` starts default-constructed empty and the constructor
delegates to `resize` (which overwrites both dimension fields, so their
pre-`resize` values are irrelevant and are taken as 0 here). -/
def matrixMk (dLeading dSecond : ℕ) : matrix :=
  matrixResize ⟨0, 0, []⟩ dLeading dSecond

/-- Models `operator()(row, col)` (dense_matrix.hpp lines 110–121):
`m_data.at(row*m_dSecond + col)` with the flat index computed in
`unsigned int` (wrapping mod `2^32`); `.at` returns the element when that
index is inside the buffer and raises `std::out_of_range` otherwise; the
fallible access is modelled as an `Option` (`none` = index error). -/
def matrixAt (m : matrix) (row col : ℕ) : Option ℚ :=
  m.m_data[(row * m.m_dSecond + col) % uintMod]?

/-- C4 counterexample: on the `2 × 3` matrix, the access `(0, 4)` violates
`col < secondDim`, yet it does NOT fail: `.at` checks only the flat offset
`0*3 + 4 = 4 < 6`, so the access succeeds. The claim's "fails if and only if"
is false in the only-if direction. -/
theorem matrixAt_not_per_coordinate :
    matrixAt (matrixMk 2 3) 0 4 = some 0 ∧ ¬ (4 < (matrixMk 2 3).m_dSecond) := by
  constructor
  · rfl
  · decide

/-- C4 (amended): `operator()(row, col)` fails with an index error if and only
if the `unsigned int` FLAT offset `(row*secondDim + col) mod 2^32` falls
outside the backing buffer (whose length, after any resize, is
`leadingDim*secondDim mod 2^32`); in particular, when the buffer size does not
overflow `unsigned int`, every access within the bounds `row < leadingDim` and
`col < secondDim` succeeds and returns the buffer element at offset
`row*secondDim + col`. -/
theorem matrixAt_flat_bounds (m : matrix) (row col : ℕ)
    (hinv : m.m_data.length = m.m_dLeading * m.m_dSecond % uintMod) :
    (matrixAt m row col = none
      ↔ m.m_dLeading * m.m_dSecond % uintMod ≤ (row * m.m_dSecond + col) % uintMod)
    ∧ (m.m_dLeading * m.m_dSecond < uintMod → row < m.m_dLeading → col < m.m_dSecond →
        matrixAt m row col = some (m.m_data.getD (row * m.m_dSecond + col) 0)) := by
  constructor
  · rw [matrixAt, List.getElem?_eq_none_iff, hinv]
  · intro hsz hr hc
    have hlt : row * m.m_dSecond + col < m.m_dLeading * m.m_dSecond :=
      calc row * m.m_dSecond + col < row * m.m_dSecond + m.m_dSecond := by omega
        _ = (row + 1) * m.m_dSecond := by ring
        _ ≤ m.m_dLeading * m.m_dSecond := Nat.mul_le_mul_right _ hr
    have hmod : (row * m.m_dSecond + col) % uintMod = row * m.m_dSecond + col :=
      Nat.mod_eq_of_lt (by omega)
    rw [matrixAt, hmod, List.getD_eq_getElem?_getD,
      List.getElem?_eq_getElem (show row * m.m_dSecond + col < m.m_data.length by
        rw [hinv, Nat.mod_eq_of_lt hsz]; omega)]
    rfl

theorem matrixAt_flat_bounds_witness :
    (matrixAt (matrixMk 2 3) 1431655766 0 = none
      ↔ (matrixMk 2 3).m_dLeading * (matrixMk 2 3).m_dSecond % uintMod
          ≤ (1431655766 * (matrixMk 2 3).m_dSecond + 0) % uintMod)
    ∧ matrixAt (matrixMk 2 3) 1 2
        = some ((matrixMk 2 3).m_data.getD (1 * (matrixMk 2 3).m_dSecond + 2) 0) :=
  ⟨(matrixAt_flat_bounds (matrixMk 2 3) 1431655766 0 (by decide)).1,
   (matrixAt_flat_bounds (matrixMk 2 3) 1 2 (by decide)).2 (by decide) (by decide) (by decide)⟩

/-- C9 counterexample: `resize(65536, 65536)` computes the buffer size
`65536*65536` in `unsigned int`, which wraps to `0 mod 2^32`, leaving a
0-element buffer — not one of `65536*65536 = 2^32` elements as the claim's
unrestricted `dLeading*dSecond` would require. -/
theorem matrix_buffer_invariant_overflow :
    (matrixResize matrixDefault 65536 65536).m_data.length = 0
    ∧ (65536 * 65536 : ℕ) ≠ 0 := by
  constructor
  · rfl
  · decide

/-- C9 (amended): the default constructor yields a `0 × 0` matrix with an
empty buffer, and `resize(dLeading, dSecond)` (also as invoked by the sizing
constructor) leaves `m_dLeading = dLeading`, `m_dSecond = dSecond`, and a
buffer of exactly `dLeading*dSecond mod 2^32` elements (the product is the
source's `unsigned int` multiplication) — which equals `dLeading*dSecond`
exactly when that product does not overflow `unsigned int`. -/
theorem matrix_buffer_invariant :
    (matrixDefault.m_dLeading = 0 ∧ matrixDefault.m_dSecond = 0
      ∧ matrixDefault.m_data = [])
    ∧ (∀ dL dS : ℕ, (matrixMk dL dS).m_dLeading = dL ∧ (matrixMk dL dS).m_dSecond = dS
        ∧ (matrixMk dL dS).m_data.length = dL * dS % uintMod)
    ∧ (∀ (m : matrix) (dL dS : ℕ), (matrixResize m dL dS).m_dLeading = dL
        ∧ (matrixResize m dL dS).m_dSecond = dS
        ∧ (matrixResize m dL dS).m_data.length = dL * dS % uintMod)
    ∧ (∀ (m : matrix) (dL dS : ℕ), dL * dS < uintMod →
        (matrixResize m dL dS).m_data.length = dL * dS) := by
  refine ⟨⟨rfl, rfl, rfl⟩, fun dL dS => ⟨rfl, rfl, vecResize_length ..⟩,
    fun m dL dS => ⟨rfl, rfl, vecResize_length ..⟩,
    fun m dL dS hsz => ?_⟩
  rw [matrixResize, vecResize_length, Nat.mod_eq_of_lt hsz]

theorem matrix_buffer_invariant_witness :
    (matrixResize matrixDefault 2 3).m_data.length = 2 * 3 :=
  matrix_buffer_invariant.2.2.2 matrixDefault 2 3 (by decide)

/-- Models `MpiSyncVector(vector, syncNode, mpi)` (dense_vector.cpp lines
45–57) as a collective over the list of all ranks' copies of the vector. The
external `mpi.Sync(buf, count, syncNode)` service (the communication boundary)
is modelled by its documented broadcast contract: every participating rank's
buffer receives the first `count` elements of rank `syncNode`'s buffer. Every
rank receives the source's dimension; a rank other than `syncNode` resizes to
it before the payload broadcast, while rank `syncNode` keeps its buffer. -/
def mpiSyncVector (world : List (List ℚ)) (syncNode : ℕ) : List (List ℚ) :=
  (List.range world.length).map (fun i =>
    copyVector
      (if i = syncNode then world.getD i [] else
        vecResize (world.getD i []) (world.getD syncNode []).length)
      (world.getD syncNode []) 0 0 (world.getD syncNode []).length)

/-- Models `matrix::MpiSync(syncNode, mpi)` (dense_matrix.hpp lines 72–79):
both dimension fields are broadcast from rank `syncNode`, then
`MpiSyncVector` runs on `m_data`. -/
def matrixMpiSync (world : List matrix) (syncNode : ℕ) : List matrix :=
  (List.range world.length).map (fun i =>
    matrix.mk (world.getD syncNode matrixDefault).m_dLeading
      (world.getD syncNode matrixDefault).m_dSecond
      (copyVector
        (if i = syncNode then (world.getD i matrixDefault).m_data else
          vecResize (world.getD i matrixDefault).m_data
            (world.getD syncNode matrixDefault).m_data.length)
        (world.getD syncNode matrixDefault).m_data 0 0
        (world.getD syncNode matrixDefault).m_data.length))

theorem mpiSyncVector_getD (world : List (List ℚ)) (r i : ℕ) (hi : i < world.length) :
    (mpiSyncVector world r).getD i [] = world.getD r [] := by
  rw [mpiSyncVector, getD_range_map _ _ _ _ hi]
  by_cases h : i = r
  · rw [if_pos h, h, copyVector_full _ _ rfl]
  · rw [if_neg h, copyVector_full _ _ (vecResize_length ..)]

theorem matrixMpiSync_getD (world : List matrix) (r i : ℕ) (hi : i < world.length) :
    (matrixMpiSync world r).getD i matrixDefault = world.getD r matrixDefault := by
  rw [matrixMpiSync, getD_range_map _ _ _ _ hi]
  by_cases h : i = r
  · rw [if_pos h, h, copyVector_full _ _ rfl]
  · rw [if_neg h, copyVector_full _ _ (vecResize_length ..)]

/-- C6: after a synchronization call with designated source rank `r`, every
participating rank's vector (for `MpiSyncVector`) or matrix (for
`matrix::MpiSync`) equals — in dimensions and element values — the container
rank `r` held before the call, and rank `r`'s own container is unchanged (the
case `i = r` of each conjunct). -/
theorem mpiSync_replicates :
    (∀ (world : List (List ℚ)) (r i : ℕ), r < world.length → i < world.length →
      (mpiSyncVector world r).getD i [] = world.getD r [])
    ∧ (∀ (world : List matrix) (r i : ℕ), r < world.length → i < world.length →
      (matrixMpiSync world r).getD i matrixDefault = world.getD r matrixDefault) :=
  ⟨fun world r i _ hi => mpiSyncVector_getD world r i hi,
   fun world r i _ hi => matrixMpiSync_getD world r i hi⟩

theorem mpiSync_replicates_witness :
    (mpiSyncVector [[1, 2], [3]] 0).getD 1 [] = [(1 : ℚ), 2]
    ∧ (matrixMpiSync [matrixMk 1 2, matrixDefault] 0).getD 1 matrixDefault = matrixMk 1 2 :=
  ⟨mpiSync_replicates.1 [[1, 2], [3]] 0 1 (by decide) (by decide),
   mpiSync_replicates.2 [matrixMk 1 2, matrixDefault] 0 1 (by decide) (by decide)⟩

/-- Models `std::minstd_rand::seed(s)`: the state is `s mod 2147483647`, with
a zero state replaced by 1 (the Lehmer generator state must be nonzero). -/
def minstdSeed (s : ℕ) : ℕ :=
  if s % 2147483647 = 0 then 1 else s % 2147483647

/-- Models one step of `std::minstd_rand`
(`linear_congruential_engine<..., 16807, 0, 2147483647>`):
`x := 16807 * x mod 2147483647`. -/
def minstdNext (x : ℕ) : ℕ :=
  16807 * x % 2147483647

/-- Models the external `std::uniform_real_distribution<double>(-scale, scale)`
draw as a fixed pure map of the fresh generator output into `[-scale, scale]`
(the exact C++ mapping is implementation-defined floating point; the claim
under study depends only on the draw being a fixed function of the scale and
the generator state). -/
def distValue (scale : ℚ) (x : ℕ) : ℚ :=
  -scale + 2 * scale * ((x - 1 : ℕ) : ℚ) / 2147483645

/-- Models the fill loop of `SetToRandomVector` (dense_vector.cpp lines
148–151): each element in order is overwritten with the next draw, the
generator advancing once per element. -/
def randFill (scale : ℚ) : ℕ → List ℚ → List ℚ
  | _, [] => []
  | g, _ :: rest => distValue scale (minstdNext g) :: randFill scale (minstdNext g) rest

/-- Models `SetToRandomVector(vec, scale, seed)` (dense_vector.cpp lines
140–152): a fresh generator is constructed and seeded with `seed` (no hidden
or ambient state), then the vector is filled. -/
def setToRandomVector (vec : List ℚ) (scale : ℚ) (seed : ℕ) : List ℚ :=
  randFill scale (minstdSeed seed) vec

theorem randFill_congr (scale : ℚ) :
    ∀ (v w : List ℚ) (g : ℕ), v.length = w.length →
      randFill scale g v = randFill scale g w := by
  intro v
  induction v with
  | nil =>
      intro w g h
      cases w with
      | nil => rfl
      | cons y ys => simp at h
  | cons x xs ih =>
      intro w g h
      cases w with
      | nil => simp at h
      | cons y ys =>
          rw [randFill, randFill, ih ys (minstdNext g) (by simpa using h)]

/-- C7: `SetToRandomVector` is deterministic in its arguments: two calls with
the same scale and seed on vectors of the same length write identical element
sequences (in particular the result does not depend on the vectors' prior
contents). -/
theorem setToRandomVector_deterministic (v w : List ℚ) (scale : ℚ) (seed : ℕ)
    (h : v.length = w.length) :
    setToRandomVector v scale seed = setToRandomVector w scale seed := by
  rw [setToRandomVector, setToRandomVector]
  exact randFill_congr scale v w (minstdSeed seed) h

theorem setToRandomVector_deterministic_witness :
    setToRandomVector [3, 4] 1 42 = setToRandomVector [5, 6] 1 42 :=
  setToRandomVector_deterministic [3, 4] [5, 6] 1 42 rfl

end Utilities
